import Mathlib

/-!
Verification of the i64 package: a bit field consisting of a single 64-bit
word, representing a set of integers in `[0, 63]`.

The Go type `Bits` (a `uint64`) is modelled as a natural number below `2^64`;
Go `int` values are modelled as `Int` (Go's `int` is 64 bits wide).  Machine
arithmetic is made explicit: left shifts reduce modulo `2^64`, shift counts
of 64 or more yield `0` (as the Go specification prescribes), and the
conversion from `int` to `uint64` takes the representative modulo `2^64`.
Go strings are modelled as lists of characters.
-/

namespace I64

/-- Go left shift on `uint64`: `x << k` reduced modulo `2^64`.  Go defines
shifts for every count; a count of 64 or more produces `0`, which agrees
with reduction modulo `2^64` (see `shl64_eq_mod`). -/
def shl64 (x k : Nat) : Nat :=
  if k < 64 then (x <<< k) % 2^64 else 0

/-- Go conversion `uint64(n)` applied to a 64-bit `int`: the representative
of `n` modulo `2^64`. -/
def uint64OfInt (n : Int) : Nat :=
  (n % (2^64 : Int)).toNat

/-- Go bitwise complement `^x` on `uint64`: exclusive or with the all-ones
word. -/
def not64 (x : Nat) : Nat :=
  x ^^^ (2^64 - 1)

/-- Fuel-indexed helper for `math/bits.TrailingZeros64`: strip low zero bits
until an odd word is reached, counting the steps.  With fuel 64 this is
exact on 64-bit words, and it returns 64 on the zero word. -/
def tzAux : Nat → Nat → Nat
  | 0, _ => 0
  | fuel+1, x => if x % 2 = 1 then 0 else tzAux fuel (x / 2) + 1

/-- `math/bits.TrailingZeros64`: the number of trailing zero bits; 64 for
the zero word. -/
def trailingZeros64 (x : Nat) : Nat := tzAux 64 x

/-- Fuel-indexed helper for `math/bits.Len64`: the number of binary digits. -/
def len64Aux : Nat → Nat → Nat
  | 0, _ => 0
  | fuel+1, x => if x = 0 then 0 else len64Aux fuel (x / 2) + 1

/-- `math/bits.Len64`: the number of bits required to represent `x`; 0 for
the zero word. -/
def len64 (x : Nat) : Nat := len64Aux 64 x

/-- `math/bits.LeadingZeros64`, defined in Go as `64 - Len64(x)`. -/
def leadingZeros64 (x : Nat) : Nat := 64 - len64 x

/-- Fuel-indexed helper for `math/bits.OnesCount64`: sum of binary digits. -/
def ocAux : Nat → Nat → Nat
  | 0, _ => 0
  | fuel+1, x => x % 2 + ocAux fuel (x / 2)

/-- `math/bits.OnesCount64`: the population count of a 64-bit word. -/
def onesCount64 (x : Nat) : Nat := ocAux 64 x

/-- `Bits.Set`: `b | (1 << uint64(n))`. -/
def Set (b : Nat) (n : Int) : Nat := b ||| shl64 1 (uint64OfInt n)

/-- `Bits.Unset`: `b & ^(1 << uint64(n))`. -/
def Unset (b : Nat) (n : Int) : Nat := b &&& not64 (shl64 1 (uint64OfInt n))

/-- `Bits.Test`: `b & (1 << uint64(n)) != 0`. -/
def Test (b : Nat) (n : Int) : Bool := b &&& shl64 1 (uint64OfInt n) != 0

/-- `Bits.Empty`: `b == 0`. -/
def Empty (b : Nat) : Bool := b == 0

/-- `Bits.Count`: `bits.OnesCount64(uint64(b))`. -/
def Count (b : Nat) : Nat := onesCount64 b

/-- `Bits.Singular`: `b != 0 && (b & (b-1)) == 0`. -/
def Singular (b : Nat) : Bool := b != 0 && (b &&& (b - 1)) == 0

/-- `Bits.Least`: `-1` on the empty field, otherwise
`bits.TrailingZeros64(uint64(b))`. -/
def Least (b : Nat) : Int := if b = 0 then -1 else (trailingZeros64 b : Int)

/-- `Bits.Most`: `-1` on the empty field, otherwise
`63 - bits.LeadingZeros64(uint64(b))`. -/
def Most (b : Nat) : Int := if b = 0 then -1 else 63 - (leadingZeros64 b : Int)

/-- The body of the loop in `Of`: set bit `n` when the Go guard
`n >= 0 && n < 64` holds, otherwise leave the field alone. -/
def ofLoop (b : Nat) (n : Int) : Nat :=
  if 0 ≤ n ∧ n < 64 then Set b n else b

/-- `Of(bits ...int)`: fold the guarded `Set` over the arguments. -/
def Of (l : List Int) : Nat :=
  l.foldl ofLoop 0

/-- Go two's-complement `int64` wrap-around: the representative of `x` in
`[-2^63, 2^63)`.  Go integer addition overflows silently, so the loop
counter `n += step` in `Range` is this of the mathematical sum. -/
def wrap64 (x : Int) : Int := (x + 2^63) % 2^64 - 2^63

/-- Fuel-indexed body of the `for n := low; n <= high; n += step` loop in
`Range`.  The counter is a Go `int`, so each increment wraps (`wrap64`). -/
def rangeAux : Nat → Nat → Int → Int → Int → Nat
  | 0, b, _, _, _ => b
  | fuel+1, b, n, high, step =>
      if n ≤ high then rangeAux fuel (Set b n) (wrap64 (n + step)) high step else b

/-- `Range(low, high, step)`: raise `low` below 0 to 0, lower `high` above
63 to 63, then set every `step`-th bit from `low` to `high`, the counter
wrapping as an `int64`.  For every `step ≥ 1` the Go loop terminates after
at most 65 condition checks when no increment overflows (the clamped bounds
confine it to at most 64 iterations), and at most about 68 when increments
wrap: wrapping needs `step ≥ 2^63 - 63`, the counter then alternates between
a value in `[1, 63]` and a wrapped negative, and the positive values descend
by `2^64 - 2*step ≥ 2` each round trip until the next increment no longer
wraps and exits.  Fuel 200 therefore reproduces the Go loop exactly for
every `step ≥ 1`; for `step ≤ 0` the Go loop need not terminate and the
claims do not cover it. -/
def Range (low high step : Int) : Nat :=
  rangeAux 200 0 (if low < 0 then 0 else low) (if high > 63 then 63 else high) step

/-- `Iter.Next`: the iterator state is the word of remaining bits (`Bits.Iter`
converts the field to that state unchanged).  `Next` returns `-1` and leaves
the state alone when the word is zero; otherwise it returns the count of
trailing zeros and clears the lowest set bit.  Modelled as a function from
the state to (result, new state). -/
def Next (it : Nat) : Int × Nat :=
  if it = 0 then (-1, it)
  else ((trailingZeros64 it : Int), it &&& (it - 1))

/-- The sequence of positions produced by calling `Next` repeatedly until it
returns a negative result, fuel-indexed; fuel 64 is enough for any 64-bit
word since every call clears one bit. -/
def iterAux : Nat → Nat → List Nat
  | 0, _ => []
  | fuel+1, it =>
      if (Next it).1 < 0 then []
      else (Next it).1.toNat :: iterAux fuel (Next it).2

/-- Full iteration of a field: all results of `Next` before exhaustion. -/
def iterList (b : Nat) : List Nat := iterAux 64 b

/-- Fuel-indexed helper for `strconv.Itoa` on nonnegative values: decimal
digits, most significant first.  Fuel 20 covers every 64-bit value. -/
def itoaAux : Nat → Nat → List Char
  | 0, _ => []
  | fuel+1, n =>
      if n < 10 then [Nat.digitChar n]
      else itoaAux fuel (n / 10) ++ [Nat.digitChar (n % 10)]

/-- `strconv.Itoa` restricted to nonnegative values (iteration positions are
nonnegative): the decimal digits of `n`. -/
def itoa (n : Nat) : List Char := itoaAux 20 n

/-- The loop of `Bits.String`: `strings.Builder` is modelled by the
accumulator, and `sep` is empty before the first position and a single
space afterwards, exactly as in the source. -/
def stringAux : Nat → List Char → List Char → Nat → List Char
  | 0, acc, _, _ => acc
  | fuel+1, acc, sep, it =>
      if (Next it).1 < 0 then acc
      else stringAux fuel (acc ++ sep ++ itoa (Next it).1.toNat) [' '] (Next it).2

/-- `Bits.String`: the set positions in ascending order, space-separated. -/
def stringOf (b : Nat) : List Char := stringAux 64 [] [] b

/-- Tokens joined by single spaces (the rendering the specification
describes: ascending decimal integers separated by single ASCII spaces with
no leading or trailing space). -/
def joinSpace : List (List Char) → List Char
  | [] => []
  | [t] => t
  | t :: ts => t ++ ' ' :: joinSpace ts

/-- Splitting a character list at every space character, in the manner of
Go's `strings.Split(s, " ")`. -/
def splitSpace : List Char → List (List Char)
  | [] => [[]]
  | c :: cs =>
      match splitSpace cs with
      | [] => [[]]
      | w :: ws => if c = ' ' then [] :: w :: ws else (c :: w) :: ws

/-- The clamp the specification's claim describes for `Range`: both bounds
forced into `[0, 63]` from both sides.  (The code clamps only one side of
each bound; this definition exists to state the claim as written.) -/
def clampSpec (x : Int) : Int := min (max x 0) 63

/-- The iterator state left behind by a call to `Next`. -/
def nextState (it : Nat) : Nat := (Next it).2

/-! ### Machine-arithmetic lemmas -/

theorem shl64_eq_mod (x k : Nat) : shl64 x k = (x <<< k) % 2^64 := by
  unfold shl64
  split
  · rfl
  · rename_i h
    rw [Nat.shiftLeft_eq]
    have hdvd : (2:Nat)^64 ∣ x * 2^k :=
      Dvd.dvd.mul_left (pow_dvd_pow 2 (by omega)) x
    omega

theorem shl64_lt (x k : Nat) : shl64 x k < 2^64 := by
  unfold shl64
  split
  · exact Nat.mod_lt _ (by positivity)
  · positivity

theorem shl64_one (k : Nat) (h : k < 64) : shl64 1 k = 2^k := by
  unfold shl64
  rw [if_pos h, Nat.shiftLeft_eq, one_mul,
    Nat.mod_eq_of_lt (Nat.pow_lt_pow_right one_lt_two h)]

theorem shl64_one_of_ge (k : Nat) (h : 64 ≤ k) : shl64 1 k = 0 := by
  unfold shl64
  rw [if_neg (by omega)]

theorem uint64OfInt_eq (n : Int) (h0 : 0 ≤ n) (h1 : n < 2^64) :
    uint64OfInt n = n.toNat := by
  unfold uint64OfInt
  have e : (2:Int)^64 = 18446744073709551616 := by norm_num
  rw [e] at h1 ⊢
  omega

theorem uint64OfInt_ge (n : Int) (hlo : -(2^63) ≤ n) (hhi : n < 2^63)
    (hout : n < 0 ∨ 63 < n) : 64 ≤ uint64OfInt n := by
  unfold uint64OfInt
  have e : (2:Int)^64 = 18446744073709551616 := by norm_num
  have e' : (2:Int)^63 = 9223372036854775808 := by norm_num
  rw [e]
  rw [e'] at hlo hhi
  omega

theorem wrap64_eq_self (x : Int) (hlo : -(2^63) ≤ x) (hhi : x < 2^63) :
    wrap64 x = x := by
  unfold wrap64
  have e : (2:Int)^64 = 18446744073709551616 := by norm_num
  have e' : (2:Int)^63 = 9223372036854775808 := by norm_num
  rw [e, e']
  rw [e'] at hlo hhi
  omega

/-! ### testBit basics -/

theorem testBit_two_mul_zero (y : Nat) : (2*y).testBit 0 = false := by
  rw [Nat.testBit_zero]
  simp [Nat.mul_mod_right]

theorem testBit_two_mul_succ (y i : Nat) : (2*y).testBit (i+1) = y.testBit i := by
  rw [Nat.testBit_succ, Nat.mul_div_cancel_left y (by norm_num)]

/-! ### Trailing zeros -/

theorem tzAux_zero (fuel : Nat) : tzAux fuel 0 = fuel := by
  induction fuel with
  | zero => rfl
  | succ fuel ih => simp [tzAux, ih]

theorem tzAux_testBit_self (fuel : Nat) :
    ∀ x, x ≠ 0 → x < 2^fuel → x.testBit (tzAux fuel x) = true := by
  induction fuel with
  | zero => intro x hx hlt; simp at hlt; omega
  | succ fuel ih =>
    intro x hx hlt
    by_cases h : x % 2 = 1
    · simp [tzAux, h, Nat.testBit_zero]
    · have hx2 : x / 2 ≠ 0 := by omega
      have hlt2 : x / 2 < 2^fuel := by
        have h2 : (2:Nat)^(fuel+1) = 2 * 2^fuel := by ring
        omega
      simp only [tzAux, if_neg h]
      rw [Nat.testBit_succ]
      exact ih (x/2) hx2 hlt2

theorem tzAux_testBit_lt (fuel : Nat) :
    ∀ x m, x < 2^fuel → m < tzAux fuel x → x.testBit m = false := by
  induction fuel with
  | zero => intro x m hlt hm; simp [tzAux] at hm
  | succ fuel ih =>
    intro x m hlt hm
    by_cases h : x % 2 = 1
    · simp [tzAux, h] at hm
    · simp only [tzAux, if_neg h] at hm
      match m with
      | 0 =>
        rw [Nat.testBit_zero]
        simp [h]
      | m+1 =>
        rw [Nat.testBit_succ]
        have hlt2 : x / 2 < 2^fuel := by
          have h2 : (2:Nat)^(fuel+1) = 2 * 2^fuel := by ring
          omega
        exact ih (x/2) m hlt2 (by omega)

theorem testBit_trailingZeros64 (x : Nat) (hx : x ≠ 0) (hlt : x < 2^64) :
    x.testBit (trailingZeros64 x) = true :=
  tzAux_testBit_self 64 x hx hlt

theorem testBit_lt_trailingZeros64 (x m : Nat) (hlt : x < 2^64)
    (hm : m < trailingZeros64 x) : x.testBit m = false :=
  tzAux_testBit_lt 64 x m hlt hm

theorem trailingZeros64_lt (x : Nat) (hx : x ≠ 0) (hlt : x < 2^64) :
    trailingZeros64 x < 64 := by
  by_contra h
  push_neg at h
  have hbit := testBit_trailingZeros64 x hx hlt
  have hx2 : x < 2^(trailingZeros64 x) :=
    lt_of_lt_of_le hlt (Nat.pow_le_pow_right (by norm_num) h)
  rw [Nat.testBit_lt_two_pow hx2] at hbit
  exact Bool.false_ne_true hbit

/-! ### Clearing the lowest set bit: `x &&& (x - 1)` -/

theorem and_pred_odd (x : Nat) (h : x % 2 = 1) : x &&& (x - 1) = x - 1 := by
  apply Nat.eq_of_testBit_eq
  intro i
  match i with
  | 0 =>
    rw [Nat.testBit_and, Nat.testBit_zero, Nat.testBit_zero]
    have h1 : (x - 1) % 2 = 0 := by omega
    simp [h1]
  | i+1 =>
    rw [Nat.testBit_and, Nat.testBit_succ, Nat.testBit_succ]
    have h2 : (x - 1) / 2 = x / 2 := by omega
    rw [h2, Bool.and_self]

theorem and_pred_even (x : Nat) (_hx : x ≠ 0) (h : x % 2 = 0) :
    x &&& (x - 1) = 2 * ((x / 2) &&& (x / 2 - 1)) := by
  apply Nat.eq_of_testBit_eq
  intro i
  match i with
  | 0 =>
    rw [Nat.testBit_and, Nat.testBit_zero, testBit_two_mul_zero]
    have h1 : ¬ (x % 2 = 1) := by omega
    simp [h1]
  | i+1 =>
    rw [Nat.testBit_and, Nat.testBit_succ, Nat.testBit_succ, testBit_two_mul_succ,
      Nat.testBit_and]
    have h2 : (x - 1) / 2 = x / 2 - 1 := by omega
    rw [h2]

theorem tzAux_and_pred_testBit (fuel : Nat) :
    ∀ x, x ≠ 0 → x < 2^fuel →
      ∀ m, (x &&& (x - 1)).testBit m = (x.testBit m && decide (m ≠ tzAux fuel x)) := by
  induction fuel with
  | zero => intro x hx hlt; simp at hlt; omega
  | succ fuel ih =>
    intro x hx hlt m
    by_cases h : x % 2 = 1
    · rw [and_pred_odd x h]
      simp only [tzAux, if_pos h]
      match m with
      | 0 =>
        have h1 : (x - 1) % 2 = 0 := by omega
        simp [Nat.testBit_zero, h1]
      | m+1 =>
        rw [Nat.testBit_succ, Nat.testBit_succ]
        have h2 : (x - 1) / 2 = x / 2 := by omega
        rw [h2]
        simp
    · have hx2 : x / 2 ≠ 0 := by omega
      have hlt2 : x / 2 < 2^fuel := by
        have h2 : (2:Nat)^(fuel+1) = 2 * 2^fuel := by ring
        omega
      rw [and_pred_even x hx (by omega)]
      simp only [tzAux, if_neg h]
      match m with
      | 0 =>
        rw [testBit_two_mul_zero, Nat.testBit_zero]
        simp [h]
      | m+1 =>
        rw [testBit_two_mul_succ, Nat.testBit_succ, ih (x/2) hx2 hlt2 m]
        have hd : decide (m ≠ tzAux fuel (x/2)) = decide (m+1 ≠ tzAux fuel (x/2) + 1) := by
          simp
        rw [hd]

theorem and_pred_testBit64 (x : Nat) (hx : x ≠ 0) (hlt : x < 2^64) (m : Nat) :
    (x &&& (x - 1)).testBit m = (x.testBit m && decide (m ≠ trailingZeros64 x)) :=
  tzAux_and_pred_testBit 64 x hx hlt m

/-! ### Population count -/

theorem ocAux_le (fuel : Nat) : ∀ x, ocAux fuel x ≤ fuel := by
  induction fuel with
  | zero => intro x; simp [ocAux]
  | succ fuel ih =>
    intro x
    simp only [ocAux]
    have := ih (x / 2)
    omega

theorem ocAux_zero (fuel : Nat) : ocAux fuel 0 = 0 := by
  induction fuel with
  | zero => rfl
  | succ fuel ih => simp [ocAux, ih]

theorem ocAux_pos (fuel : Nat) :
    ∀ x, x ≠ 0 → x < 2^fuel → 1 ≤ ocAux fuel x := by
  induction fuel with
  | zero => intro x hx hlt; simp at hlt; omega
  | succ fuel ih =>
    intro x hx hlt
    simp only [ocAux]
    by_cases h : x % 2 = 1
    · omega
    · have hlt2 : x / 2 < 2^fuel := by
        have h2 : (2:Nat)^(fuel+1) = 2 * 2^fuel := by ring
        omega
      have := ih (x/2) (by omega) hlt2
      omega

theorem ocAux_and_pred (fuel : Nat) :
    ∀ x, x ≠ 0 → x < 2^fuel → ocAux fuel (x &&& (x - 1)) + 1 = ocAux fuel x := by
  induction fuel with
  | zero => intro x hx hlt; simp at hlt; omega
  | succ fuel ih =>
    intro x hx hlt
    by_cases h : x % 2 = 1
    · rw [and_pred_odd x h]
      simp only [ocAux]
      have h1 : (x - 1) % 2 = 0 := by omega
      have h2 : (x - 1) / 2 = x / 2 := by omega
      rw [h1, h2]
      omega
    · have hx2 : x / 2 ≠ 0 := by omega
      have hlt2 : x / 2 < 2^fuel := by
        have h2 : (2:Nat)^(fuel+1) = 2 * 2^fuel := by ring
        omega
      rw [and_pred_even x hx (by omega)]
      simp only [ocAux]
      rw [Nat.mul_mod_right, Nat.mul_div_cancel_left _ (by norm_num)]
      have := ih (x/2) hx2 hlt2
      omega

theorem count_and_pred (b : Nat) (hb : b ≠ 0) (hlt : b < 2^64) :
    Count (b &&& (b - 1)) + 1 = Count b :=
  ocAux_and_pred 64 b hb hlt

theorem count_zero : Count 0 = 0 := ocAux_zero 64

theorem count_pos (b : Nat) (hb : b ≠ 0) (hlt : b < 2^64) : 1 ≤ Count b :=
  ocAux_pos 64 b hb hlt

theorem count_le_64 (b : Nat) : Count b ≤ 64 := ocAux_le 64 b

/-! ### Bit length -/

theorem len64Aux_zero (fuel : Nat) : len64Aux fuel 0 = 0 := by
  cases fuel <;> simp [len64Aux]

theorem len64Aux_spec (fuel : Nat) :
    ∀ x, x ≠ 0 → x < 2^fuel →
      2^(len64Aux fuel x - 1) ≤ x ∧ x < 2^(len64Aux fuel x) ∧
        1 ≤ len64Aux fuel x ∧ len64Aux fuel x ≤ fuel := by
  induction fuel with
  | zero => intro x hx hlt; simp at hlt; omega
  | succ fuel ih =>
    intro x hx hlt
    simp only [len64Aux, if_neg hx]
    by_cases h2 : x / 2 = 0
    · have hx1 : x = 1 := by omega
      subst hx1
      rw [h2, len64Aux_zero]
      norm_num
    · have hlt2 : x / 2 < 2^fuel := by
        have he : (2:Nat)^(fuel+1) = 2 * 2^fuel := by ring
        omega
      obtain ⟨ha, hb, hc, hd⟩ := ih (x/2) h2 hlt2
      refine ⟨?_, ?_, by omega, by omega⟩
      · simp only [Nat.add_sub_cancel]
        have he : (2:Nat)^(len64Aux fuel (x/2)) = 2 * 2^(len64Aux fuel (x/2) - 1) := by
          conv_lhs => rw [show len64Aux fuel (x/2) = (len64Aux fuel (x/2) - 1) + 1 by omega]
          ring
        omega
      · have he : (2:Nat)^(len64Aux fuel (x/2) + 1) = 2 * 2^(len64Aux fuel (x/2)) := by
          ring
        omega

theorem len64_spec (x : Nat) (hx : x ≠ 0) (hlt : x < 2^64) :
    2^(len64 x - 1) ≤ x ∧ x < 2^(len64 x) ∧ 1 ≤ len64 x ∧ len64 x ≤ 64 :=
  len64Aux_spec 64 x hx hlt

theorem testBit_lt_64 (b m : Nat) (hb : b < 2^64) (h : b.testBit m = true) :
    m < 64 := by
  by_contra hge
  rw [Nat.testBit_lt_two_pow
    (lt_of_lt_of_le hb (Nat.pow_le_pow_right (by norm_num) (by omega)))] at h
  exact Bool.false_ne_true h

/-! ### Set, Unset, Test on in-range positions -/

theorem Set_eq (b : Nat) (n : Int) (h0 : 0 ≤ n) (h1 : n < 64) :
    Set b n = b ||| 2^n.toNat := by
  unfold Set
  rw [uint64OfInt_eq n h0 (by norm_num; omega), shl64_one _ (by omega)]

theorem Unset_eq (b : Nat) (n : Int) (h0 : 0 ≤ n) (h1 : n < 64) :
    Unset b n = b &&& not64 (2^n.toNat) := by
  unfold Unset
  rw [uint64OfInt_eq n h0 (by norm_num; omega), shl64_one _ (by omega)]

theorem Test_eq (b : Nat) (n : Int) (h0 : 0 ≤ n) (h1 : n < 64) :
    Test b n = b.testBit n.toNat := by
  unfold Test
  rw [uint64OfInt_eq n h0 (by norm_num; omega), shl64_one _ (by omega),
    Nat.and_two_pow]
  cases h : b.testBit n.toNat
  · simp [h]
  · have hp : (2:Nat)^n.toNat ≠ 0 := by positivity
    simp [h, hp]

theorem Test_natCast (b m : Nat) (hm : m < 64) : Test b (m : Int) = b.testBit m := by
  rw [Test_eq b m (by positivity) (by exact_mod_cast hm)]
  simp

theorem testBit_not64 (x i : Nat) (h : i < 64) :
    (not64 x).testBit i = !x.testBit i := by
  unfold not64
  rw [Nat.testBit_xor, Nat.testBit_two_pow_sub_one]
  simp [h]

theorem and_all_ones (b : Nat) (hb : b < 2^64) : b &&& (2^64 - 1) = b := by
  apply Nat.eq_of_testBit_eq
  intro i
  rw [Nat.testBit_and, Nat.testBit_two_pow_sub_one]
  by_cases h : i < 64
  · simp [h]
  · have hbit : b.testBit i = false :=
      Nat.testBit_lt_two_pow
        (lt_of_lt_of_le hb (Nat.pow_le_pow_right (by norm_num) (by omega)))
    simp [h, hbit]

theorem Set_lt (b : Nat) (n : Int) (hb : b < 2^64) : Set b n < 2^64 :=
  Nat.or_lt_two_pow hb (shl64_lt 1 _)

/-! ### The `Of` fold -/

theorem ofLoop_lt (b : Nat) (n : Int) (hb : b < 2^64) : ofLoop b n < 2^64 := by
  unfold ofLoop
  split
  · exact Set_lt b n hb
  · exact hb

theorem foldl_ofLoop_lt (l : List Int) :
    ∀ b : Nat, b < 2^64 → l.foldl ofLoop b < 2^64 := by
  induction l with
  | nil => intro b hb; simpa using hb
  | cons n l ih =>
    intro b hb
    rw [List.foldl_cons]
    exact ih _ (ofLoop_lt b n hb)

theorem foldl_ofLoop_testBit (l : List Int) :
    ∀ (b : Nat) (m : Nat), m < 64 →
      ((l.foldl ofLoop b).testBit m = true ↔ b.testBit m = true ∨ (m:Int) ∈ l) := by
  induction l with
  | nil => intro b m hm; simp
  | cons n l ih =>
    intro b m hm
    rw [List.foldl_cons, ih _ m hm]
    by_cases h : 0 ≤ n ∧ n < 64
    · rw [show ofLoop b n = Set b n from by rw [ofLoop, if_pos h],
        Set_eq b n h.1 h.2, Nat.testBit_or]
      have h1 : ((2:Nat)^n.toNat).testBit m = decide (n.toNat = m) := by
        by_cases he : n.toNat = m
        · subst he; simp [Nat.testBit_two_pow_self]
        · simp [Nat.testBit_two_pow_of_ne he, he]
      rw [h1]
      have h2 : (n.toNat = m) ↔ ((m:Int) = n) := by omega
      simp only [Bool.or_eq_true, decide_eq_true_eq, List.mem_cons, h2]
      tauto
    · rw [show ofLoop b n = b from by rw [ofLoop, if_neg h]]
      have h2 : ¬ ((m:Int) = n) := by omega
      simp only [List.mem_cons, h2]
      tauto

/-! ### The `Range` loop -/

theorem no_step_hit (n high step : Int) (hs : 1 ≤ step) (hn : high < n) (m : Nat) :
    ¬ ∃ k : Nat, (m:Int) = n + k * step ∧ (m:Int) ≤ high := by
  rintro ⟨k, hk1, hk2⟩
  have hk : (0:Int) ≤ (k:Int) * step := mul_nonneg (Int.natCast_nonneg k) (by omega)
  omega

theorem exists_step_cons (n high step m : Int) :
    (∃ k : Nat, m = n + k * step ∧ m ≤ high) ↔
      ((m = n ∧ m ≤ high) ∨ ∃ k : Nat, m = (n + step) + k * step ∧ m ≤ high) := by
  constructor
  · rintro ⟨k, hk, hm⟩
    match k with
    | 0 => exact Or.inl ⟨by simpa using hk, hm⟩
    | k+1 =>
      refine Or.inr ⟨k, ?_, hm⟩
      push_cast at hk
      linear_combination hk
  · rintro (⟨hm, hh⟩ | ⟨k, hk, hh⟩)
    · exact ⟨0, by simpa using hm, hh⟩
    · refine ⟨k+1, ?_, hh⟩
      push_cast
      linear_combination hk

theorem testBit_rangeAux (fuel : Nat) :
    ∀ (b : Nat) (n high step : Int), 1 ≤ step → step ≤ 2^63 - 64 → 0 ≤ n →
      high ≤ 63 → high + 1 - n ≤ (fuel:Int) → b < 2^64 →
      ∀ m : Nat, m < 64 →
        ((rangeAux fuel b n high step).testBit m = true ↔
          b.testBit m = true ∨ ∃ k : Nat, (m:Int) = n + k * step ∧ (m:Int) ≤ high) := by
  induction fuel with
  | zero =>
    intro b n high step hs hsmall hn hhigh hfuel hb m hm
    simp only [rangeAux]
    constructor
    · exact Or.inl
    · rintro (h | h)
      · exact h
      · exact absurd h (no_step_hit n high step hs (by simp at hfuel; omega) m)
  | succ fuel ih =>
    intro b n high step hs hsmall hn hhigh hfuel hb m hm
    simp only [rangeAux]
    by_cases hcond : n ≤ high
    · rw [if_pos hcond]
      have e' : (2:Int)^63 = 9223372036854775808 := by norm_num
      have hw : wrap64 (n + step) = n + step := by
        apply wrap64_eq_self <;> rw [e'] at hsmall ⊢ <;> omega
      rw [hw]
      rw [ih (Set b n) (n+step) high step hs hsmall (by omega) hhigh
        (by push_cast at hfuel ⊢; omega) (Set_lt b n hb) m hm]
      rw [Set_eq b n hn (by omega), Nat.testBit_or]
      rw [exists_step_cons n high step (m:Int)]
      have h1 : ((2:Nat)^n.toNat).testBit m = decide (n.toNat = m) := by
        by_cases he : n.toNat = m
        · subst he; simp [Nat.testBit_two_pow_self]
        · simp [Nat.testBit_two_pow_of_ne he, he]
      rw [h1]
      have h2 : (n.toNat = m) ↔ ((m:Int) = n) := by omega
      have h3 : ((m:Int) = n) → ((m:Int) ≤ high) := by omega
      simp only [Bool.or_eq_true, decide_eq_true_eq, h2]
      constructor
      · rintro ((hbit | he) | hE)
        · exact Or.inl hbit
        · exact Or.inr (Or.inl ⟨he, h3 he⟩)
        · exact Or.inr (Or.inr hE)
      · rintro (hbit | (⟨he, _⟩ | hE))
        · exact Or.inl (Or.inl hbit)
        · exact Or.inl (Or.inr he)
        · exact Or.inr hE
    · rw [if_neg hcond]
      constructor
      · exact Or.inl
      · rintro (h | h)
        · exact h
        · exact absurd h (no_step_hit n high step hs (by omega) m)

/-! ### The iterator -/

theorem Next_zero : Next 0 = (-1, 0) := rfl

theorem Next_of_ne (it : Nat) (h : it ≠ 0) :
    Next it = ((trailingZeros64 it : Int), it &&& (it - 1)) := by
  unfold Next
  rw [if_neg h]

theorem nextState_zero : nextState 0 = 0 := rfl

theorem iterAux_zero_word (fuel : Nat) : iterAux fuel 0 = [] := by
  cases fuel with
  | zero => rfl
  | succ fuel => norm_num [iterAux, Next]

theorem iterAux_succ_ne (fuel it : Nat) (h : it ≠ 0) :
    iterAux (fuel+1) it = trailingZeros64 it :: iterAux fuel (it &&& (it - 1)) := by
  simp only [iterAux, Next_of_ne it h]
  rw [if_neg (not_lt.mpr (Int.natCast_nonneg _))]
  simp

theorem count_eq_zero (it : Nat) (hlt : it < 2^64) (h : Count it = 0) : it = 0 := by
  by_contra hne
  have := count_pos it hne hlt
  omega

theorem mem_iterAux (fuel : Nat) :
    ∀ it, it < 2^64 → Count it ≤ fuel →
      ∀ m, m ∈ iterAux fuel it ↔ it.testBit m = true := by
  induction fuel with
  | zero =>
    intro it hlt hc m
    have hz : it = 0 := count_eq_zero it hlt (by omega)
    subst hz
    simp [iterAux_zero_word, Nat.zero_testBit]
  | succ fuel ih =>
    intro it hlt hc m
    by_cases h : it = 0
    · subst h; simp [iterAux_zero_word, Nat.zero_testBit]
    · rw [iterAux_succ_ne fuel it h]
      have h1 : it &&& (it - 1) < 2^64 := lt_of_le_of_lt Nat.and_le_left hlt
      have h2 : Count (it &&& (it - 1)) ≤ fuel := by
        have := count_and_pred it h hlt
        omega
      rw [List.mem_cons, ih _ h1 h2 m, and_pred_testBit64 it h hlt m]
      have htz := testBit_trailingZeros64 it h hlt
      by_cases hm : m = trailingZeros64 it
      · subst hm; simp [htz]
      · simp [hm]

theorem sorted_iterAux (fuel : Nat) :
    ∀ it, it < 2^64 → Count it ≤ fuel → List.Sorted (· < ·) (iterAux fuel it) := by
  induction fuel with
  | zero =>
    intro it hlt hc
    have hz : it = 0 := count_eq_zero it hlt (by omega)
    subst hz
    simp [iterAux_zero_word]
  | succ fuel ih =>
    intro it hlt hc
    by_cases h : it = 0
    · subst h; simp [iterAux_zero_word]
    · rw [iterAux_succ_ne fuel it h]
      have h1 : it &&& (it - 1) < 2^64 := lt_of_le_of_lt Nat.and_le_left hlt
      have h2 : Count (it &&& (it - 1)) ≤ fuel := by
        have := count_and_pred it h hlt
        omega
      rw [List.sorted_cons]
      refine ⟨?_, ih _ h1 h2⟩
      intro y hy
      rw [mem_iterAux fuel _ h1 h2 y, and_pred_testBit64 it h hlt y] at hy
      simp only [Bool.and_eq_true, decide_eq_true_eq] at hy
      rcases Nat.lt_or_ge (trailingZeros64 it) y with hgt | hle
      · exact hgt
      · exfalso
        rcases Nat.lt_or_ge y (trailingZeros64 it) with hylt | hyge
        · rw [testBit_lt_trailingZeros64 it y hlt hylt] at hy
          exact Bool.false_ne_true hy.1
        · exact hy.2 (by omega)

theorem length_iterAux (fuel : Nat) :
    ∀ it, it < 2^64 → Count it ≤ fuel → (iterAux fuel it).length = Count it := by
  induction fuel with
  | zero =>
    intro it hlt hc
    have hz : it = 0 := count_eq_zero it hlt (by omega)
    subst hz
    simp [iterAux_zero_word, count_zero]
  | succ fuel ih =>
    intro it hlt hc
    by_cases h : it = 0
    · subst h; simp [iterAux_zero_word, count_zero]
    · rw [iterAux_succ_ne fuel it h]
      have h1 : it &&& (it - 1) < 2^64 := lt_of_le_of_lt Nat.and_le_left hlt
      have h2 : Count (it &&& (it - 1)) ≤ fuel := by
        have := count_and_pred it h hlt
        omega
      rw [List.length_cons, ih _ h1 h2]
      have := count_and_pred it h hlt
      omega

theorem mem_iterList (b : Nat) (hb : b < 2^64) (m : Nat) :
    m ∈ iterList b ↔ b.testBit m = true :=
  mem_iterAux 64 b hb (count_le_64 b) m

theorem sorted_iterList (b : Nat) (hb : b < 2^64) :
    List.Sorted (· < ·) (iterList b) :=
  sorted_iterAux 64 b hb (count_le_64 b)

theorem length_iterList (b : Nat) (hb : b < 2^64) :
    (iterList b).length = Count b :=
  length_iterAux 64 b hb (count_le_64 b)

theorem iterList_ne_nil (b : Nat) (h : b ≠ 0) : iterList b ≠ [] := by
  unfold iterList
  rw [show (64:Nat) = 63 + 1 from rfl, iterAux_succ_ne 63 b h]
  simp

/-! ### Rendering -/

theorem stringAux_eq (fuel : Nat) :
    ∀ (acc sep : List Char) (it : Nat),
      stringAux fuel acc sep it =
        if iterAux fuel it = [] then acc
        else acc ++ sep ++ joinSpace ((iterAux fuel it).map itoa) := by
  induction fuel with
  | zero => intro acc sep it; simp [stringAux, iterAux]
  | succ fuel ih =>
    intro acc sep it
    by_cases h : it = 0
    · subst h
      rw [iterAux_zero_word]
      norm_num [stringAux, Next]
    · rw [iterAux_succ_ne fuel it h]
      have hstep : stringAux (fuel+1) acc sep it
          = stringAux fuel (acc ++ sep ++ itoa (trailingZeros64 it)) [' ']
              (it &&& (it - 1)) := by
        simp only [stringAux, Next_of_ne it h]
        rw [if_neg (not_lt.mpr (Int.natCast_nonneg _))]
        simp
      rw [hstep, ih]
      by_cases h2 : iterAux fuel (it &&& (it - 1)) = []
      · rw [if_pos h2, if_neg (by simp), h2]
        simp [joinSpace]
      · rw [if_neg h2, if_neg (by simp)]
        obtain ⟨r, rs, hr⟩ : ∃ r rs, iterAux fuel (it &&& (it - 1)) = r :: rs := by
          cases hx : iterAux fuel (it &&& (it - 1)) with
          | nil => exact absurd hx h2
          | cons r rs => exact ⟨r, rs, rfl⟩
        rw [hr]
        simp [joinSpace, List.append_assoc]

theorem stringOf_eq (b : Nat) : stringOf b = joinSpace ((iterList b).map itoa) := by
  unfold stringOf iterList
  rw [stringAux_eq 64 [] [] b]
  by_cases h : iterAux 64 b = []
  · rw [if_pos h, h]
    simp [joinSpace]
  · rw [if_neg h]
    simp

theorem digitChar_ne_space : ∀ n, n < 10 → Nat.digitChar n ≠ ' ' := by decide

theorem itoaAux_ne_nil (fuel n : Nat) : itoaAux (fuel+1) n ≠ [] := by
  simp only [itoaAux]
  split
  · simp
  · simp

theorem itoa_ne_nil (n : Nat) : itoa n ≠ [] := itoaAux_ne_nil 19 n

theorem mem_itoaAux_ne_space (fuel : Nat) :
    ∀ n c, c ∈ itoaAux fuel n → c ≠ ' ' := by
  induction fuel with
  | zero => intro n c hc; simp [itoaAux] at hc
  | succ fuel ih =>
    intro n c hc
    simp only [itoaAux] at hc
    split at hc
    · rename_i hlt
      simp at hc
      subst hc
      exact digitChar_ne_space n hlt
    · rw [List.mem_append] at hc
      rcases hc with hc | hc
      · exact ih _ c hc
      · simp at hc
        subst hc
        exact digitChar_ne_space _ (Nat.mod_lt _ (by norm_num))

theorem mem_itoa_ne_space (n : Nat) (c : Char) (hc : c ∈ itoa n) : c ≠ ' ' :=
  mem_itoaAux_ne_space 20 n c hc

theorem joinSpace_ne_nil (t : List Char) (ts : List (List Char)) (ht : t ≠ []) :
    joinSpace (t :: ts) ≠ [] := by
  cases ts with
  | nil => simpa [joinSpace] using ht
  | cons t' ts' => simp [joinSpace]

/-! ### Splitting on spaces -/

theorem splitSpace_ne_nil (l : List Char) : splitSpace l ≠ [] := by
  cases l with
  | nil => simp [splitSpace]
  | cons c cs =>
    simp only [splitSpace]
    rcases splitSpace cs with _ | ⟨w, ws⟩
    · simp
    · show ¬(if c = ' ' then [] :: w :: ws else (c :: w) :: ws) = []
      split <;> simp

theorem splitSpace_space_cons (r : List Char) :
    splitSpace (' ' :: r) = [] :: splitSpace r := by
  simp only [splitSpace]
  rcases h : splitSpace r with _ | ⟨w, ws⟩
  · exact absurd h (splitSpace_ne_nil r)
  · simp

theorem splitSpace_cons_of_ne (c : Char) (hc : c ≠ ' ') (r : List Char)
    (w : List Char) (ws : List (List Char)) (h : splitSpace r = w :: ws) :
    splitSpace (c :: r) = (c :: w) :: ws := by
  simp only [splitSpace, h]
  simp [hc]

theorem splitSpace_no_space (t : List Char) (ht : ∀ c ∈ t, c ≠ ' ') :
    splitSpace t = [t] := by
  induction t with
  | nil => rfl
  | cons c cs ih =>
    have hc : c ≠ ' ' := ht c (by simp)
    have ih' : splitSpace cs = [cs] := ih (fun x hx => ht x (by simp [hx]))
    exact splitSpace_cons_of_ne c hc cs cs [] ih'

theorem splitSpace_append (t r : List Char) (ht : ∀ c ∈ t, c ≠ ' ') :
    splitSpace (t ++ ' ' :: r) = t :: splitSpace r := by
  induction t with
  | nil => simpa using splitSpace_space_cons r
  | cons c cs ih =>
    have hc : c ≠ ' ' := ht c (by simp)
    have ih' : splitSpace (cs ++ ' ' :: r) = cs :: splitSpace r :=
      ih (fun x hx => ht x (by simp [hx]))
    exact splitSpace_cons_of_ne c hc _ cs (splitSpace r) ih'

theorem splitSpace_joinSpace :
    ∀ ts : List (List Char), ts ≠ [] →
      (∀ t ∈ ts, ∀ c ∈ t, c ≠ ' ') → splitSpace (joinSpace ts) = ts := by
  intro ts
  induction ts with
  | nil => intro h; exact absurd rfl h
  | cons t ts ih =>
    intro _ hsp
    cases ts with
    | nil =>
      rw [show joinSpace [t] = t from rfl]
      exact splitSpace_no_space t (hsp t (by simp))
    | cons t' ts' =>
      rw [show joinSpace (t :: t' :: ts') = t ++ ' ' :: joinSpace (t' :: ts') from rfl]
      rw [splitSpace_append t _ (hsp t (by simp))]
      rw [ih (by simp) (fun u hu => hsp u (List.mem_cons_of_mem t hu))]

/-! ### Termination of iteration -/

theorem Next_snd_lt (it : Nat) (h : it ≠ 0) : (Next it).2 < it := by
  rw [Next_of_ne it h]
  exact lt_of_le_of_lt Nat.and_le_right (by omega)

theorem nextState_iterate_zero (k : Nat) : nextState^[k] 0 = 0 := by
  induction k with
  | zero => rfl
  | succ k ih => rw [Function.iterate_succ_apply, nextState_zero, ih]

theorem nextState_iterate (c : Nat) :
    ∀ b, b < 2^64 → Count b = c →
      nextState^[c] b = 0 ∧ ∀ k, k < c → nextState^[k] b ≠ 0 := by
  induction c with
  | zero =>
    intro b hb hc
    refine ⟨?_, by omega⟩
    have hz := count_eq_zero b hb hc
    simpa [Function.iterate_zero_apply] using hz
  | succ c ih =>
    intro b hb hc
    have hbne : b ≠ 0 := by
      intro h
      subst h
      rw [count_zero] at hc
      omega
    have hstep : nextState b = b &&& (b - 1) := by
      unfold nextState
      rw [Next_of_ne b hbne]
    have h1 : b &&& (b - 1) < 2^64 := lt_of_le_of_lt Nat.and_le_left hb
    have h2 : Count (b &&& (b - 1)) = c := by
      have := count_and_pred b hbne hb
      omega
    obtain ⟨ha, hk⟩ := ih (b &&& (b - 1)) h1 h2
    constructor
    · rw [Function.iterate_succ_apply, hstep]
      exact ha
    · intro k hkc
      match k with
      | 0 => simpa using hbne
      | k+1 =>
        rw [Function.iterate_succ_apply, hstep]
        exact hk k (by omega)

theorem of_lt (l : List Int) : Of l < 2^64 :=
  foldl_ofLoop_lt l 0 (by positivity)

theorem of_testBit (l : List Int) (m : Nat) (hm : m < 64) :
    (Of l).testBit m = true ↔ (m:Int) ∈ l := by
  unfold Of
  rw [foldl_ofLoop_testBit l 0 m hm]
  simp [Nat.zero_testBit]

/-! ## The claims -/

/-- Claim C1, as the specification states it (both bounds clamped into
`[0,63]` from both sides, for every `step ≥ 1`), fails in two independent
ways.  At `Range(64, 64, 1)` the two-sided clamp predicts bit 63 set, but
the code never lowers `low`, the loop body does not run, and the field is
empty.  At `Range(63, 63, 2^63-1)` the claimed characterization allows only
position 63, but the `int64` loop counter wraps around and re-enters
`[0,63]`, so the code also sets bit 1 (indeed every odd position). -/
theorem range_clamp_counterexample :
    (¬ ((Range 64 64 1).testBit 63 = true ↔
        ∃ k : Nat, (63:Int) = clampSpec 64 + k * 1 ∧ (63:Int) ≤ clampSpec 64)) ∧
    (¬ ((Range 63 63 9223372036854775807).testBit 1 = true ↔
        ∃ k : Nat, (1:Int) = clampSpec 63 + k * 9223372036854775807 ∧
          (1:Int) ≤ clampSpec 63)) := by
  constructor
  · intro h
    have hmem : ∃ k : Nat, (63:Int) = clampSpec 64 + k * 1 ∧ (63:Int) ≤ clampSpec 64 :=
      ⟨0, by norm_num [clampSpec], by norm_num [clampSpec]⟩
    have hbit := h.mpr hmem
    have hz : Range 64 64 1 = 0 := by decide
    rw [hz, Nat.zero_testBit] at hbit
    exact Bool.false_ne_true hbit
  · intro h
    have hbit : (Range 63 63 9223372036854775807).testBit 1 = true := by decide
    obtain ⟨k, hk, -⟩ := h.mp hbit
    have hc : clampSpec 63 = 63 := by norm_num [clampSpec]
    rw [hc] at hk
    have hnn : (0:Int) ≤ (k:Int) * 9223372036854775807 :=
      mul_nonneg (Int.natCast_nonneg k) (by norm_num)
    omega

/-- Claim C1 (amended): for every `step` with `1 ≤ step ≤ 2^63 - 64` (so
that the `int64` loop counter never overflows), the set bits of
`Range(low, high, step)` are exactly the positions `max(low,0) + k*step`
(`k = 0, 1, 2, ...`) that do not exceed `min(high,63)`: `low` below 0 is
raised to 0 and `high` above 63 is lowered to 63, while `low` above 63 and
`high` below 0 are left unadjusted (the range is then empty).  For larger
`step` the wrapping counter can re-enter `[0,63]` and set further bits. -/
theorem range_spec (low high step : Int) (hs : 1 ≤ step)
    (hsmall : step ≤ 2^63 - 64) (m : Nat) (hm : m < 64) :
    (Range low high step).testBit m = true ↔
      ∃ k : Nat, (m:Int) = max low 0 + k * step ∧ (m:Int) ≤ min high 63 := by
  unfold Range
  have hlow : (if low < 0 then 0 else low) = max low 0 := by
    split <;> omega
  have hhigh : (if high > 63 then 63 else high) = min high 63 := by
    split <;> omega
  rw [hlow, hhigh,
    testBit_rangeAux 200 0 (max low 0) (min high 63) step hs hsmall (by omega)
      (by omega) (by push_cast; omega) (by positivity) m hm]
  simp [Nat.zero_testBit]

theorem range_spec_witness :
    ((1:Int) ≤ 7 ∧ (7:Int) ≤ 2^63 - 64 ∧ 14 < 64) ∧
      ((Range (-5) 100 7).testBit 14 = true ↔
        ∃ k : Nat, (14:Int) = max (-5) 0 + k * 7 ∧ (14:Int) ≤ min 100 63) :=
  ⟨⟨by norm_num, by norm_num, by norm_num⟩,
    range_spec (-5) 100 7 (by norm_num) (by norm_num) 14 (by norm_num)⟩

/-- Claim C2: full iteration of a field yields a strictly ascending sequence
(hence no duplicates), containing exactly the positions `n ∈ [0,63]` where
`Test` is true, and its length is `Count`. -/
theorem iter_spec (b : Nat) (hb : b < 2^64) :
    List.Sorted (· < ·) (iterList b) ∧
      (∀ n : Nat, n ∈ iterList b ↔ n < 64 ∧ Test b (n:Int) = true) ∧
      (iterList b).length = Count b := by
  refine ⟨sorted_iterList b hb, ?_, length_iterList b hb⟩
  intro n
  rw [mem_iterList b hb n]
  constructor
  · intro h
    have hn := testBit_lt_64 b n hb h
    rw [Test_natCast b n hn]
    exact ⟨hn, h⟩
  · rintro ⟨hn, ht⟩
    rw [Test_natCast b n hn] at ht
    exact ht

theorem iter_spec_witness :
    (42:Nat) < 2^64 ∧
      (List.Sorted (· < ·) (iterList 42) ∧
        (∀ n : Nat, n ∈ iterList 42 ↔ n < 64 ∧ Test 42 (n:Int) = true) ∧
        (iterList 42).length = Count 42) :=
  ⟨by norm_num, iter_spec 42 (by norm_num)⟩

/-- Claim C3: on a non-zero remaining word, `Next` returns the lowest
remaining set position (nonnegative, set, with nothing set below it) and the
new state is the old one with exactly that bit removed; on the zero word it
returns `-1` with the state unchanged, and the exhausted state is terminal:
every later call again returns `-1` with state zero — no failure of any
kind. -/
theorem next_spec (it : Nat) (hlt : it < 2^64) :
    (it ≠ 0 →
      0 ≤ (Next it).1 ∧
      it.testBit (Next it).1.toNat = true ∧
      (∀ m : Nat, m < (Next it).1.toNat → it.testBit m = false) ∧
      (∀ m : Nat, ((Next it).2).testBit m =
        (it.testBit m && decide (m ≠ (Next it).1.toNat)))) ∧
    Next 0 = (-1, 0) ∧
    (∀ k : Nat, Next (nextState^[k] 0) = (-1, 0)) := by
  refine ⟨?_, Next_zero, fun k => by rw [nextState_iterate_zero k]; exact Next_zero⟩
  intro h
  rw [Next_of_ne it h]
  dsimp only
  rw [Int.toNat_natCast]
  exact ⟨Int.natCast_nonneg _, testBit_trailingZeros64 it h hlt,
    fun m hm => testBit_lt_trailingZeros64 it m hlt hm,
    fun m => and_pred_testBit64 it h hlt m⟩

theorem next_spec_witness :
    (40:Nat) < 2^64 ∧ (40:Nat) ≠ 0 ∧
      0 ≤ (Next 40).1 ∧ Nat.testBit 40 (Next 40).1.toNat = true ∧
      Next 0 = (-1, 0) := by
  have h := next_spec 40 (by norm_num)
  exact ⟨by norm_num, by norm_num, (h.1 (by norm_num)).1, (h.1 (by norm_num)).2.1, h.2.1⟩

/-- Claim C4: `Least` is `-1` exactly on the empty field and otherwise names
a set bit below which no bit is set; `Most` is `-1` exactly on the empty
field and otherwise names a set bit above which no bit is set.  (That
`Least` is the trailing-zero count and `Most` is 63 minus the leading-zero
count is the definition of `Least` and `Most`.) -/
theorem least_most_spec (b : Nat) (hb : b < 2^64) :
    ((Least b = -1) ↔ b = 0) ∧ ((Most b = -1) ↔ b = 0) ∧
      (b ≠ 0 →
        b.testBit (Least b).toNat = true ∧
        (∀ m : Nat, m < (Least b).toNat → b.testBit m = false) ∧
        b.testBit (Most b).toNat = true ∧
        (∀ m : Nat, (Most b).toNat < m → b.testBit m = false)) := by
  by_cases h : b = 0
  · subst h
    exact ⟨by simp [Least], by simp [Most], by simp⟩
  · obtain ⟨hle, hlt2, h1, h64⟩ := len64_spec b h hb
    have hLeast : Least b = (trailingZeros64 b : Int) := by rw [Least, if_neg h]
    have hMost : Most b = (len64 b : Int) - 1 := by
      rw [Most, if_neg h]
      unfold leadingZeros64
      omega
    refine ⟨?_, ?_, fun _ => ⟨?_, ?_, ?_, ?_⟩⟩
    · rw [hLeast]
      constructor
      · intro habs; omega
      · intro habs; exact absurd habs h
    · rw [hMost]
      constructor
      · intro habs; omega
      · intro habs; exact absurd habs h
    · rw [hLeast, Int.toNat_natCast]
      exact testBit_trailingZeros64 b h hb
    · rw [hLeast, Int.toNat_natCast]
      exact fun m hm => testBit_lt_trailingZeros64 b m hb hm
    · have htn : (Most b).toNat = len64 b - 1 := by rw [hMost]; omega
      rw [htn]
      have hp2 : (2:Nat)^(len64 b) = 2 * 2^(len64 b - 1) := by
        conv_lhs => rw [show len64 b = (len64 b - 1) + 1 by omega]
        ring
      have hdiv : b / 2^(len64 b - 1) = 1 :=
        Nat.div_eq_of_lt_le (by omega) (by omega)
      rw [Nat.testBit_to_div_mod, hdiv]
      rfl
    · have htn : (Most b).toNat = len64 b - 1 := by rw [hMost]; omega
      rw [htn]
      intro m hm
      exact Nat.testBit_lt_two_pow
        (lt_of_lt_of_le hlt2 (Nat.pow_le_pow_right (by norm_num) (by omega)))

theorem least_most_spec_witness :
    (42:Nat) < 2^64 ∧ ((Least 42 = -1) ↔ (42:Nat) = 0) ∧
      ((Most 42 = -1) ↔ (42:Nat) = 0) :=
  ⟨by norm_num, (least_most_spec 42 (by norm_num)).1,
    (least_most_spec 42 (by norm_num)).2.1⟩

/-- Claim C5: `String` renders the set positions as their decimal digit
strings joined by single spaces (hence no leading or trailing space), is
empty exactly on the empty field, and splitting the output on spaces
reproduces the decimal renderings of the iteration sequence; every token is
nonempty and space-free. -/
theorem string_spec (b : Nat) :
    (stringOf b = [] ↔ b = 0) ∧
      stringOf b = joinSpace ((iterList b).map itoa) ∧
      (∀ n : Nat, itoa n ≠ [] ∧ ∀ c ∈ itoa n, c ≠ ' ') ∧
      (b ≠ 0 → splitSpace (stringOf b) = (iterList b).map itoa) := by
  have hjoin := stringOf_eq b
  refine ⟨?_, hjoin,
    fun n => ⟨itoa_ne_nil n, fun c hc => mem_itoa_ne_space n c hc⟩, ?_⟩
  · constructor
    · intro hempty
      by_contra hne
      rcases hl : iterList b with _ | ⟨x, xs⟩
      · exact iterList_ne_nil b hne hl
      · rw [hjoin, hl, List.map_cons] at hempty
        exact joinSpace_ne_nil _ _ (itoa_ne_nil x) hempty
    · intro h0
      subst h0
      have hz : iterList 0 = [] := iterAux_zero_word 64
      rw [hjoin, hz]
      rfl
  · intro hne
    rw [hjoin]
    apply splitSpace_joinSpace
    · simpa using iterList_ne_nil b hne
    · intro t ht c hc
      rw [List.mem_map] at ht
      obtain ⟨n, _, rfl⟩ := ht
      exact mem_itoa_ne_space n c hc

theorem string_spec_witness :
    (42:Nat) ≠ 0 ∧ splitSpace (stringOf 42) = (iterList 42).map itoa :=
  ⟨by norm_num, (string_spec 42).2.2.2 (by norm_num)⟩

/-- Claim C6: for positions `n, m ∈ [0,63]` with `m ≠ n`: `Set n` makes
`Test n` true, `Unset n` makes `Test n` false, and both leave `Test m`
unchanged. -/
theorem set_unset_test_spec (b : Nat) (n m : Int)
    (hn0 : 0 ≤ n) (hn1 : n < 64) (hm0 : 0 ≤ m) (hm1 : m < 64) (hmn : m ≠ n) :
    Test (Set b n) n = true ∧ Test (Unset b n) n = false ∧
      Test (Set b n) m = Test b m ∧ Test (Unset b n) m = Test b m := by
  have hset := Set_eq b n hn0 hn1
  have hunset := Unset_eq b n hn0 hn1
  have hne : n.toNat ≠ m.toNat := by omega
  refine ⟨?_, ?_, ?_, ?_⟩
  · rw [Test_eq _ n hn0 hn1, hset, Nat.testBit_or, Nat.testBit_two_pow_self]
    simp
  · rw [Test_eq _ n hn0 hn1, hunset, Nat.testBit_and,
      testBit_not64 _ _ (by omega), Nat.testBit_two_pow_self]
    simp
  · rw [Test_eq _ m hm0 hm1, Test_eq b m hm0 hm1, hset, Nat.testBit_or,
      Nat.testBit_two_pow_of_ne hne]
    simp
  · rw [Test_eq _ m hm0 hm1, Test_eq b m hm0 hm1, hunset, Nat.testBit_and,
      testBit_not64 _ _ (by omega), Nat.testBit_two_pow_of_ne hne]
    simp

theorem set_unset_test_spec_witness :
    ((0:Int) ≤ 3 ∧ (3:Int) < 64 ∧ (0:Int) ≤ 1 ∧ (1:Int) < 64 ∧ (1:Int) ≠ 3) ∧
      (Test (Set 10 3) 3 = true ∧ Test (Unset 10 3) 3 = false ∧
        Test (Set 10 3) 1 = Test 10 1 ∧ Test (Unset 10 3) 1 = Test 10 1) :=
  ⟨⟨by norm_num, by norm_num, by norm_num, by norm_num, by norm_num⟩,
    set_unset_test_spec 10 3 1 (by norm_num) (by norm_num) (by norm_num)
      (by norm_num) (by norm_num)⟩

/-- Claim C7: `Singular` is true exactly when `Count` is 1, and it is
computed as: the word is nonzero and clearing its lowest set bit
(`word & (word-1)`) gives zero. -/
theorem singular_spec (b : Nat) (hb : b < 2^64) :
    (Singular b = true ↔ Count b = 1) ∧
      Singular b = (b != 0 && (b &&& (b - 1)) == 0) := by
  refine ⟨?_, rfl⟩
  by_cases h : b = 0
  · subst h
    decide
  · have hcp := count_and_pred b h hb
    constructor
    · intro hs
      unfold Singular at hs
      simp only [Bool.and_eq_true, bne_iff_ne, beq_iff_eq] at hs
      rw [hs.2, count_zero] at hcp
      omega
    · intro hc
      have hz : b &&& (b - 1) = 0 :=
        count_eq_zero _ (lt_of_le_of_lt Nat.and_le_left hb) (by omega)
      unfold Singular
      simp [h, hz]

theorem singular_spec_witness :
    (8:Nat) < 2^64 ∧ (Singular 8 = true ↔ Count 8 = 1) :=
  ⟨by norm_num, (singular_spec 8 (by norm_num)).1⟩

/-- Claim C8: `Of` sets exactly the listed positions that lie in `[0,63]`;
arguments outside that range are silently ignored, and duplicates add
nothing (`Of` is unchanged under deduplication of its argument list). -/
theorem of_spec (l : List Int) :
    Of l < 2^64 ∧
      (∀ m : Nat, m < 64 → ((Of l).testBit m = true ↔ (m:Int) ∈ l)) ∧
      Of l = Of l.dedup := by
  refine ⟨of_lt l, fun m hm => of_testBit l m hm, ?_⟩
  apply Nat.eq_of_testBit_eq
  intro i
  by_cases hi : i < 64
  · rw [Bool.eq_iff_iff, of_testBit l i hi, of_testBit l.dedup i hi, List.mem_dedup]
  · have h1 : (Of l).testBit i = false :=
      Nat.testBit_lt_two_pow
        (lt_of_lt_of_le (of_lt l) (Nat.pow_le_pow_right (by norm_num) (by omega)))
    have h2 : (Of l.dedup).testBit i = false :=
      Nat.testBit_lt_two_pow
        (lt_of_lt_of_le (of_lt l.dedup) (Nat.pow_le_pow_right (by norm_num) (by omega)))
    rw [h1, h2]

theorem of_spec_witness :
    (2:Nat) < 64 ∧
      ((Of [2, -1, 70, 2]).testBit 2 = true ↔ ((2:Nat):Int) ∈ [(2:Int), -1, 70, 2]) :=
  ⟨by norm_num, (of_spec [2, -1, 70, 2]).2.1 2 (by norm_num)⟩

/-- Claim C9: for a position outside `[0,63]` (within the 64-bit `int`
range), `Set` and `Unset` return the field unchanged and `Test` returns
false — Go's shift semantics make these well-defined no-ops, with no
corruption and no wrapping of the position. -/
theorem out_of_range_spec (b : Nat) (hb : b < 2^64) (n : Int)
    (hlo : -(2^63) ≤ n) (hhi : n < 2^63) (hout : n < 0 ∨ 63 < n) :
    Set b n = b ∧ Unset b n = b ∧ Test b n = false := by
  have h64 : 64 ≤ uint64OfInt n := uint64OfInt_ge n hlo hhi hout
  have hz : shl64 1 (uint64OfInt n) = 0 := shl64_one_of_ge _ h64
  refine ⟨?_, ?_, ?_⟩
  · unfold Set
    rw [hz, Nat.or_zero]
  · unfold Unset
    rw [hz]
    unfold not64
    rw [Nat.zero_xor]
    exact and_all_ones b hb
  · unfold Test
    rw [hz, Nat.and_zero]
    simp

theorem out_of_range_spec_witness :
    ((5:Nat) < 2^64 ∧ -(2^63) ≤ (-1:Int) ∧ (-1:Int) < 2^63 ∧
        ((-1:Int) < 0 ∨ (63:Int) < -1)) ∧
      (Set 5 (-1) = 5 ∧ Unset 5 (-1) = 5 ∧ Test 5 (-1) = false) :=
  ⟨⟨by norm_num, by norm_num, by norm_num, Or.inl (by norm_num)⟩,
    out_of_range_spec 5 (by norm_num) (-1) (by norm_num) (by norm_num)
      (Or.inl (by norm_num))⟩

/-- Claim C10: `Next` on a non-zero remaining word strictly decreases it, so
iteration terminates: starting from any field, the state reaches zero after
exactly `Count` calls and not before. -/
theorem iteration_terminates (b : Nat) (hb : b < 2^64) :
    (∀ it : Nat, it ≠ 0 → (Next it).2 < it) ∧
      nextState^[Count b] b = 0 ∧ (∀ k : Nat, k < Count b → nextState^[k] b ≠ 0) := by
  obtain ⟨h1, h2⟩ := nextState_iterate (Count b) b hb rfl
  exact ⟨Next_snd_lt, h1, h2⟩

theorem iteration_terminates_witness :
    (42:Nat) < 2^64 ∧ nextState^[Count 42] 42 = 0 ∧
      ((40:Nat) ≠ 0 ∧ (Next 40).2 < 40) := by
  have h := iteration_terminates 42 (by norm_num)
  exact ⟨by norm_num, h.2.1, by norm_num, h.1 40 (by norm_num)⟩

end I64
